import Mathlib

/-!
Verification of the keepup-helm-scraper core: image collection, rule
matching, version normalization and namespace aggregation, embedded
shallowly from the Go sources (`src/main.go`, `src/rules`).

Strings are modelled through their character lists (`String.data`), Go
maps through association lists whose update keeps keys unique, and the
two regex operations a compiled rule exposes (`MatchString`,
`FindString`) through boolean / string-valued functions carried by the
rule value.  The fixed normalization pattern
`(\d+)\.(\d+)(\.\d+)?` of `normalizeSemVer` is embedded as an explicit
leftmost scanner: for this pattern greedy digit runs are exact (a digit
and a dot never overlap), so maximal-munch parsing coincides with the
regex engine's leftmost-first semantics.
-/

/-- Substring membership over character lists: does `pat` occur starting
at the head of `l`?  Models the anchored step of a literal regex. -/
def listHasPre : List Char → List Char → Bool
  | [], _ => true
  | _ :: _, [] => false
  | p :: ps, c :: cs => p == c && listHasPre ps cs

/-- Does `pat` occur anywhere inside `l`?  Models `MatchString` of a
literal pattern (Go finds the leftmost occurrence; for a boolean match
any occurrence is equivalent). -/
def listHasSub (pat : List Char) : List Char → Bool
  | [] => listHasPre pat []
  | c :: cs => listHasPre pat (c :: cs) || listHasSub pat cs

/-- `strContains s pat`: the literal `pat` occurs inside `s`; embeds
`regexp.MustCompile(literal).MatchString(s)`. -/
def strContains (s pat : String) : Bool := listHasSub pat.data s.data

/-- Anchored match of `(\d+)\.(\d+)(\.\d+)?` at the head of `l`,
returning the three submatch groups (`m[1]`, `m[2]`, `m[3]`): the third
group keeps its leading dot, and is `[]` when absent, exactly as Go's
`FindStringSubmatch` yields `""` for an unmatched group.  `\d+` is the
maximal digit run (`takeWhile`): greedy matching is exact for this
pattern because a digit never equals a dot. -/
def matchVerAt (l : List Char) : Option (List Char × List Char × List Char) :=
  if (l.takeWhile Char.isDigit).isEmpty then none else
  match l.dropWhile Char.isDigit with
  | [] => none
  | d :: r2 =>
    if d = '.' then
      if (r2.takeWhile Char.isDigit).isEmpty then none else
      match r2.dropWhile Char.isDigit with
      | [] => some (l.takeWhile Char.isDigit, r2.takeWhile Char.isDigit, [])
      | e :: r4 =>
        if e = '.' then
          if (r4.takeWhile Char.isDigit).isEmpty then
            some (l.takeWhile Char.isDigit, r2.takeWhile Char.isDigit, [])
          else
            some (l.takeWhile Char.isDigit, r2.takeWhile Char.isDigit,
              '.' :: r4.takeWhile Char.isDigit)
        else some (l.takeWhile Char.isDigit, r2.takeWhile Char.isDigit, [])
    else none

/-- Leftmost match of the fixed normalization pattern: Go's
`versionRe.FindStringSubmatch`, scanning start positions left to
right. -/
def findVerSub : List Char → Option (List Char × List Char × List Char)
  | [] => none
  | c :: cs =>
    match matchVerAt (c :: cs) with
    | some m => some m
    | none => findVerSub cs

/-- Embeds Go `normalizeSemVer(imageVer, versionRe)`: find the leftmost
`(\d+)\.(\d+)(\.\d+)?` submatch; on failure report absence; otherwise
default an absent patch group to `.0` and rebuild
`major ++ "." ++ minor ++ patch`. -/
def normalizeSemVer (imageVer : String) : Option String :=
  match findVerSub imageVer.data with
  | none => none
  | some (maj, mino, patch) =>
    let patch := if patch = [] then ['.', '0'] else patch
    some ⟨maj ++ '.' :: mino ++ patch⟩

/-! ## Rules and the matching pipeline (`main`, `src/main.go:59-89`)

A compiled rule is used by `main` only through
`DetectionRegex.MatchString` and `VersionRegex.FindString`; the
embedding therefore carries those two operations as functions.  Go's
`FindString` yields `""` when the pattern does not occur, and
`normalizeSemVer` receives that string unchanged. -/

structure Rule where
  ApplicationName : String
  DetectionMatch : String → Bool
  VersionFind : String → String

/-- Per-namespace application→version map (`map[string]string`),
as an association list whose update keeps each key once. -/
abbrev AppMap := List (String × String)

/-- `uniqImagesByNs : map[string]map[string]string`. -/
abbrev NsMap := List (String × AppMap)

/-- Go map assignment `m[k] = v`: overwrite in place, add the key once
if absent. -/
def appSet : AppMap → String → String → AppMap
  | [], k, v => [(k, v)]
  | (k', v') :: rest, k, v =>
    if k' = k then (k, v) :: rest else (k', v') :: appSet rest k v

def appGet : AppMap → String → Option String
  | [], _ => none
  | (k', v') :: rest, k => if k' = k then some v' else appGet rest k

/-- `uniqImagesByNs[ns][app] = v`, creating the inner map when the
namespace key is new (`if _, ok := uniq[ns]; !ok { uniq[ns] = make }`). -/
def nsSet : NsMap → String → String → String → NsMap
  | [], ns, k, v => [(ns, appSet [] k v)]
  | (n, m) :: rest, ns, k, v =>
    if n = ns then (n, appSet m k v) :: rest else (n, m) :: nsSet rest ns k v

def nsGet (acc : NsMap) (ns k : String) : Option String :=
  match acc with
  | [] => none
  | (n, m) :: rest => if n = ns then appGet m k else nsGet rest ns k

/-- Body of the inner rule loop of `main` for one image: on a detection
match, normalize the extracted version; record it under the rule's
application name when present, leave the accumulator untouched when
absent.  Note there is no early exit — the loop continues past a
matching rule. -/
def stepRule (ns img : String) (acc : NsMap) (rule : Rule) : NsMap :=
  if rule.DetectionMatch img then
    match normalizeSemVer (rule.VersionFind img) with
    | some v => nsSet acc ns rule.ApplicationName v
    | none => acc
  else acc

/-- `for _, rule := range rules { ... }` over one image. -/
def processImage (rules : List Rule) (ns img : String) (acc : NsMap) : NsMap :=
  rules.foldl (stepRule ns img) acc

/-- The whole matching stage: every image of every namespace folded into
the accumulator, which `main` starts empty. -/
def processAll (rules : List Rule) (imagesByNs : List (String × List String)) : NsMap :=
  imagesByNs.foldl
    (fun acc p => p.2.foldl (fun a img => processImage rules p.1 img a) acc) []

structure HelmChartInfo where
  ChartName : String
  Version : String
  Namespace : String
deriving DecidableEq, Repr

/-- `src/main.go:80-89`: build the report list from the aggregate.  The
Go loop is `for v, i := range versionedImage`, so `v` is the map KEY
(the application name) and `i` the VALUE (the version); the struct is
filled as `{ChartName: i, Version: v, Namespace: ns}`, reproduced
verbatim here. -/
def buildReport (uniq : NsMap) : List HelmChartInfo :=
  uniq.foldl (fun out p =>
    p.2.foldl (fun o q =>
      match q with
      | (v, i) => o ++ [{ ChartName := i, Version := v, Namespace := p.1 }]) out) []

/-! ### Concrete rules used by the spec's end-to-end scenario

Detection regex `redis` is a literal: `MatchString` is substring
occurrence.  Version regex `redis:(\d+\.\d+\.\d+)`: `FindString`
returns the text of the leftmost occurrence of the literal `redis:`
followed by a three-component digit group, or `""` when absent. -/

/-- Anchored match of `\d+\.\d+\.\d+` (all three components required),
returning the matched text. -/
def matchTripleAt (l : List Char) : Option (List Char) :=
  if (l.takeWhile Char.isDigit).isEmpty then none else
  match l.dropWhile Char.isDigit with
  | [] => none
  | d :: r2 =>
    if d = '.' then
      if (r2.takeWhile Char.isDigit).isEmpty then none else
      match r2.dropWhile Char.isDigit with
      | [] => none
      | e :: r4 =>
        if e = '.' then
          if (r4.takeWhile Char.isDigit).isEmpty then none
          else some (l.takeWhile Char.isDigit ++ '.' :: r2.takeWhile Char.isDigit
            ++ '.' :: r4.takeWhile Char.isDigit)
        else none
    else none

/-- Anchored match of `redis:\d+\.\d+\.\d+` returning the matched text. -/
def redisVerAt (l : List Char) : Option (List Char) :=
  if listHasPre "redis:".data l then
    (matchTripleAt (l.drop 6)).map (fun t => "redis:".data ++ t)
  else none

/-- Leftmost occurrence scan for `redisVerAt`. -/
def redisVerScan : List Char → Option (List Char)
  | [] => none
  | c :: cs =>
    match redisVerAt (c :: cs) with
    | some m => some m
    | none => redisVerScan cs

/-- `regexp.MustCompile("redis:(\d+\.\d+\.\d+)").FindString`. -/
def redisVerFind (s : String) : String :=
  match redisVerScan s.data with
  | none => ""
  | some m => ⟨m⟩

/-- The scenario rule `{app:"redis", detect:"redis",
version:"redis:(\d+\.\d+\.\d+)"}`. -/
def redisRule : Rule :=
  { ApplicationName := "redis"
    DetectionMatch := fun s => strContains s "redis"
    VersionFind := redisVerFind }

/-! ## Image collection (`collectImages`, `CollectNamespaceImages`)

`acc[ns]` in Go is `map[string]int` used as a set: assignment adds the
key once.  A namespace's set of keys is embedded as a duplicate-free
list where insertion of a present key is a no-op.  The final
normalization step of `CollectNamespaceImages` emits each key exactly
once, so the key list is the collected collection. -/

structure Container where
  Image : String

structure PodSpec where
  Containers : List Container
  InitContainers : List Container

/-- Key-set effect of `m[k] = 1` on a Go map. -/
def setInsert (s : List String) (x : String) : List String :=
  if x ∈ s then s else s ++ [x]

/-- `collectImages(spec, ns, acc)` restricted to one namespace's set:
main containers first, then init containers. -/
def collectImages (spec : PodSpec) (acc : List String) : List String :=
  let a1 := spec.Containers.foldl (fun a c => setInsert a c.Image) acc
  spec.InitContainers.foldl (fun a c => setInsert a c.Image) a1

/-- A namespace's pass of `CollectNamespaceImages`: fold every workload
pod spec into the (initially empty) set. -/
def collectNamespace (specs : List PodSpec) : List String :=
  specs.foldl (fun a s => collectImages s a) []

/-- All image strings referenced by any main or init container of any
workload, with multiplicity (what the collector deduplicates). -/
def allContainerImages (specs : List PodSpec) : List String :=
  specs.flatMap (fun s => (s.Containers ++ s.InitContainers).map Container.Image)

/-! ## Rule loading (`LoadRules`, package `rules`)

The file read and the YAML unmarshal are stdlib/library calls; the
loop over the parsed entries is the repository's code and is embedded
verbatim, parameterized by the compiled-regex type and by
`regexp.Compile`. -/

structure DetectionRuleYaml where
  ApplicationName : String
  VersionRegex : String
  DetectionRegex : String

structure RuleG (R : Type) where
  ApplicationName : String
  VersionRegex : R
  DetectionRegex : R

/-- The loop of `LoadRules` over the parsed `rf.DockerImages`: compile
the detection regex then the version regex of each entry in order; any
compile failure aborts with `invalid ... regex for <app>: <err>` and no
rule list; otherwise append the compiled rule and continue. -/
def loadRulesLoop {R : Type} (compile : String → Except String R) :
    List DetectionRuleYaml → Except String (List (RuleG R))
  | [] => Except.ok []
  | r :: rest =>
    match compile r.DetectionRegex with
    | Except.error e =>
        Except.error ("invalid detection regex for " ++ r.ApplicationName ++ ": " ++ e)
    | Except.ok d =>
      match compile r.VersionRegex with
      | Except.error e =>
          Except.error ("invalid version regex for " ++ r.ApplicationName ++ ": " ++ e)
      | Except.ok v =>
        match loadRulesLoop compile rest with
        | Except.error e => Except.error e
        | Except.ok rs =>
            Except.ok ({ ApplicationName := r.ApplicationName
                         VersionRegex := v, DetectionRegex := d } :: rs)

/-- An entry on which `regexp.Compile` fails for the detection or the
version pattern. -/
def failsCompile {R : Type} (compile : String → Except String R)
    (r : DetectionRuleYaml) : Prop :=
  (∃ e, compile r.DetectionRegex = Except.error e) ∨
  (∃ e, compile r.VersionRegex = Except.error e)

/-- A compile function for witnesses: fails exactly on the (invalid)
pattern `[`, as `regexp.Compile` does. -/
def demoCompile : String → Except String Unit :=
  fun s => if s = "[" then Except.error "missing closing ]" else Except.ok ()

/-! ## Further concrete rules and invariant vocabulary -/

/-- `FindString` of a rule whose version pattern is the generic
`\d+\.\d+(\.\d+)?`: the text of the leftmost match, `""` when none. -/
def verFindStr (s : String) : String :=
  match findVerSub s.data with
  | none => ""
  | some (a, b, p) => ⟨a ++ '.' :: b ++ p⟩

/-- Rule declared first in the order: detection literal `web`. -/
def ruleA : Rule :=
  { ApplicationName := "appA"
    DetectionMatch := fun s => strContains s "web"
    VersionFind := verFindStr }

/-- Rule declared second, matching the same images. -/
def ruleB : Rule :=
  { ApplicationName := "appB"
    DetectionMatch := fun s => strContains s "web"
    VersionFind := verFindStr }

/-- Both map levels of the aggregate have duplicate-free keys — the Go
map invariant. -/
def nsKeysNodup (m : NsMap) : Prop :=
  (m.map Prod.fst).Nodup ∧ ∀ p ∈ m, (p.2.map Prod.fst).Nodup

/-- Number of aggregate entries recorded for a (namespace,
applicationName) pair. -/
def aggCount (m : NsMap) (ns app : String) : Nat :=
  (m.flatMap (fun p =>
    if p.1 = ns then p.2.filter (fun q => q.1 == app) else [])).length

/-- All characters are decimal digits. -/
def allDigits (l : List Char) : Prop := ∀ c ∈ l, c.isDigit = true

/-! ## Lemmas about the fixed version pattern -/

theorem takeWhile_digits (l : List Char) : allDigits (l.takeWhile Char.isDigit) := by
  induction l with
  | nil => intro c hc; simp at hc
  | cons x xs ih =>
    intro c hc
    by_cases hx : x.isDigit
    · simp [List.takeWhile_cons, hx] at hc
      rcases hc with hc | hc
      · simpa [hc]
      · exact ih c hc
    · simp [List.takeWhile_cons, hx] at hc

theorem takeWhile_digits_append (a t : List Char) (ha : allDigits a) :
    ((a ++ '.' :: t).takeWhile Char.isDigit) = a := by
  induction a with
  | nil => simp [List.takeWhile_cons]
  | cons x xs ih =>
    have hx : x.isDigit = true := ha x (by simp)
    have ih' := ih (fun c hc => ha c (by simp [hc]))
    simp [List.takeWhile_cons, hx, ih']

theorem dropWhile_digits_append (a t : List Char) (ha : allDigits a) :
    ((a ++ '.' :: t).dropWhile Char.isDigit) = '.' :: t := by
  induction a with
  | nil => simp [List.dropWhile_cons]
  | cons x xs ih =>
    have hx : x.isDigit = true := ha x (by simp)
    have ih' := ih (fun c hc => ha c (by simp [hc]))
    simp [List.dropWhile_cons, hx, ih']

theorem takeWhile_digits_all (c : List Char) (h : allDigits c) :
    (c.takeWhile Char.isDigit) = c := by
  induction c with
  | nil => rfl
  | cons x xs ih =>
    have hx : x.isDigit = true := h x (by simp)
    have ih' := ih (fun y hy => h y (by simp [hy]))
    simp [List.takeWhile_cons, hx, ih']

theorem matchVerAt_norm (a b c : List Char)
    (ha : allDigits a) (hb : allDigits b) (hc : allDigits c)
    (ha0 : a ≠ []) (hb0 : b ≠ []) (hc0 : c ≠ []) :
    matchVerAt (a ++ '.' :: (b ++ '.' :: c)) = some (a, b, '.' :: c) := by
  have haE : a.isEmpty = false := by
    cases a with | nil => exact absurd rfl ha0 | cons x xs => rfl
  have hbE : b.isEmpty = false := by
    cases b with | nil => exact absurd rfl hb0 | cons x xs => rfl
  have hcE : c.isEmpty = false := by
    cases c with | nil => exact absurd rfl hc0 | cons x xs => rfl
  unfold matchVerAt
  simp [takeWhile_digits_append a (b ++ '.' :: c) ha,
    dropWhile_digits_append a (b ++ '.' :: c) ha, haE,
    takeWhile_digits_append b c hb, dropWhile_digits_append b c hb, hbE,
    takeWhile_digits_all c hc, hcE]

theorem findVerSub_norm (a b c : List Char)
    (ha : allDigits a) (hb : allDigits b) (hc : allDigits c)
    (ha0 : a ≠ []) (hb0 : b ≠ []) (hc0 : c ≠ []) :
    findVerSub (a ++ '.' :: (b ++ '.' :: c)) = some (a, b, '.' :: c) := by
  cases a with
  | nil => exact absurd rfl ha0
  | cons x xs =>
    show findVerSub (x :: (xs ++ '.' :: (b ++ '.' :: c))) = _
    rw [findVerSub]
    have hm := matchVerAt_norm (x :: xs) b c ha hb hc ha0 hb0 hc0
    rw [List.cons_append] at hm
    rw [hm]

theorem matchVerAt_inv (l a b p : List Char) (h : matchVerAt l = some (a, b, p)) :
    (a ≠ [] ∧ allDigits a) ∧ (b ≠ [] ∧ allDigits b) ∧
      (p = [] ∨ ∃ q, q ≠ [] ∧ allDigits q ∧ p = '.' :: q) := by
  unfold matchVerAt at h
  by_cases h1 : (List.takeWhile Char.isDigit l).isEmpty = true
  · rw [if_pos h1] at h; exact absurd h (by simp)
  rw [if_neg h1] at h
  have hmaj0 : List.takeWhile Char.isDigit l ≠ [] := fun hcon => h1 (by simp [hcon])
  cases hA : List.dropWhile Char.isDigit l with
  | nil => rw [hA] at h; exact absurd h (by simp)
  | cons d r2 =>
    rw [hA] at h
    simp only [] at h
    by_cases hd : d = '.'
    case neg => rw [if_neg hd] at h; exact absurd h (by simp)
    rw [if_pos hd] at h
    by_cases h2 : (List.takeWhile Char.isDigit r2).isEmpty = true
    · rw [if_pos h2] at h; exact absurd h (by simp)
    rw [if_neg h2] at h
    have hmino0 : List.takeWhile Char.isDigit r2 ≠ [] := fun hcon => h2 (by simp [hcon])
    cases hB : List.dropWhile Char.isDigit r2 with
    | nil =>
      rw [hB] at h
      simp only [Option.some.injEq, Prod.mk.injEq] at h
      obtain ⟨h4, h5, h6⟩ := h
      subst h4; subst h5; subst h6
      exact ⟨⟨hmaj0, takeWhile_digits l⟩, ⟨hmino0, takeWhile_digits r2⟩, Or.inl rfl⟩
    | cons e r4 =>
      rw [hB] at h
      simp only [] at h
      by_cases he : e = '.'
      case neg =>
        rw [if_neg he] at h
        simp only [Option.some.injEq, Prod.mk.injEq] at h
        obtain ⟨h4, h5, h6⟩ := h
        subst h4; subst h5; subst h6
        exact ⟨⟨hmaj0, takeWhile_digits l⟩, ⟨hmino0, takeWhile_digits r2⟩, Or.inl rfl⟩
      rw [if_pos he] at h
      by_cases h3 : (List.takeWhile Char.isDigit r4).isEmpty = true
      · rw [if_pos h3] at h
        simp only [Option.some.injEq, Prod.mk.injEq] at h
        obtain ⟨h4, h5, h6⟩ := h
        subst h4; subst h5; subst h6
        exact ⟨⟨hmaj0, takeWhile_digits l⟩, ⟨hmino0, takeWhile_digits r2⟩, Or.inl rfl⟩
      · rw [if_neg h3] at h
        simp only [Option.some.injEq, Prod.mk.injEq] at h
        obtain ⟨h4, h5, h6⟩ := h
        subst h4; subst h5
        refine ⟨⟨hmaj0, takeWhile_digits l⟩, ⟨hmino0, takeWhile_digits r2⟩,
          Or.inr ⟨List.takeWhile Char.isDigit r4, fun hcon => h3 (by simp [hcon]),
            takeWhile_digits r4, h6.symm⟩⟩

theorem findVerSub_inv (l : List Char) (a b p : List Char)
    (h : findVerSub l = some (a, b, p)) :
    (a ≠ [] ∧ allDigits a) ∧ (b ≠ [] ∧ allDigits b) ∧
      (p = [] ∨ ∃ q, q ≠ [] ∧ allDigits q ∧ p = '.' :: q) := by
  induction l with
  | nil => simp [findVerSub] at h
  | cons c cs ih =>
    rw [findVerSub] at h
    cases hm : matchVerAt (c :: cs) with
    | some m =>
      rw [hm] at h
      obtain ⟨rfl⟩ : m = (a, b, p) := by simpa using h
      exact matchVerAt_inv (c :: cs) a b p hm
    | none =>
      rw [hm] at h
      exact ih h

/-- Shape of every successful `normalizeSemVer` output: a nonempty digit
run, a dot, a nonempty digit run, a dot, a nonempty digit run. -/
theorem normalizeSemVer_some (t s : String) (h : normalizeSemVer t = some s) :
    ∃ a b c, (a ≠ [] ∧ allDigits a) ∧ (b ≠ [] ∧ allDigits b) ∧
      (c ≠ [] ∧ allDigits c) ∧ s.data = a ++ '.' :: (b ++ '.' :: c) := by
  unfold normalizeSemVer at h
  cases heq : findVerSub t.data with
  | none => rw [heq] at h; simp at h
  | some trip =>
    obtain ⟨a, b, p⟩ := trip
    rw [heq] at h
    obtain ⟨⟨ha0, ha⟩, ⟨hb0, hb⟩, hp⟩ := findVerSub_inv t.data a b p heq
    rcases hp with hp | ⟨q, hq0, hq, hp⟩
    · subst hp
      simp only [if_pos rfl, Option.some.injEq] at h
      subst h
      refine ⟨a, b, ['0'], ⟨ha0, ha⟩, ⟨hb0, hb⟩, ⟨by simp, ?_⟩, by simp⟩
      intro x hx; simp at hx; simp [hx]
    · subst hp
      simp only [if_neg (List.cons_ne_nil '.' q), Option.some.injEq] at h
      subst h
      exact ⟨a, b, q, ⟨ha0, ha⟩, ⟨hb0, hb⟩, ⟨hq0, hq⟩, by simp⟩

theorem findVerSub_leftmost (l : List Char) (m : List Char × List Char × List Char)
    (h : findVerSub l = some m) :
    ∃ n, matchVerAt (List.drop n l) = some m ∧
      ∀ k < n, matchVerAt (List.drop k l) = none := by
  induction l with
  | nil => simp [findVerSub] at h
  | cons c cs ih =>
    rw [findVerSub] at h
    cases hm : matchVerAt (c :: cs) with
    | some m' =>
      rw [hm] at h
      refine ⟨0, ?_, by omega⟩
      simpa using hm.trans (by simpa using h)
    | none =>
      rw [hm] at h
      obtain ⟨n, h1, h2⟩ := ih h
      refine ⟨n + 1, by simpa [List.drop_succ_cons] using h1, ?_⟩
      intro k hk
      cases k with
      | zero => simpa using hm
      | succ j => simpa [List.drop_succ_cons] using h2 j (by omega)

/-! ## Claims about the version normalizer -/

/-- C3: normalization maps `3.11` to `3.11.0`, `3.11.4` to itself,
`alpine` to absence, and in general a leftmost match with an absent
patch group is completed with a literal `0` patch. -/
theorem c3_normalize_defaults :
    normalizeSemVer "3.11" = some "3.11.0" ∧
    normalizeSemVer "3.11.4" = some "3.11.4" ∧
    normalizeSemVer "alpine" = none ∧
    ∀ (s : String) (a b : List Char), findVerSub s.data = some (a, b, []) →
      normalizeSemVer s = some ⟨a ++ '.' :: (b ++ ['.', '0'])⟩ := by
  refine ⟨by decide, by decide, by decide, ?_⟩
  intro s a b h
  unfold normalizeSemVer
  rw [h]
  simp

/-- C3 witness at the concrete input `9.8`. -/
theorem c3_witness : normalizeSemVer "9.8" = some ⟨['9'] ++ '.' :: (['8'] ++ ['.', '0'])⟩ :=
  c3_normalize_defaults.2.2.2 "9.8" ['9'] ['8'] (by decide)

/-- C8: normalization is idempotent on every string it can produce. -/
theorem c8_idempotent (t s : String) (h : normalizeSemVer t = some s) :
    normalizeSemVer s = some s := by
  obtain ⟨a, b, c, ⟨ha0, ha⟩, ⟨hb0, hb⟩, ⟨hc0, hc⟩, hs⟩ := normalizeSemVer_some t s h
  unfold normalizeSemVer
  rw [hs, findVerSub_norm a b c ha hb hc ha0 hb0 hc0]
  simp [String.ext_iff, hs]

/-- C8 witness: `1.2` normalizes to `1.2.0`, which re-normalizes to
itself. -/
theorem c8_witness : normalizeSemVer "1.2.0" = some "1.2.0" :=
  c8_idempotent "1.2" "1.2.0" (by decide)

/-- C9: normalization uses the leftmost occurrence of the version
pattern (`1.2-alpine3.18` yields `1.2.0`, not `3.18.0`): the submatch
returned is the one at the first position where the pattern matches,
every earlier position failing. -/
theorem c9_leftmost :
    normalizeSemVer "1.2-alpine3.18" = some "1.2.0" ∧
    ∀ (l : List Char) (m : List Char × List Char × List Char),
      findVerSub l = some m →
      ∃ n, matchVerAt (List.drop n l) = some m ∧
        ∀ k < n, matchVerAt (List.drop k l) = none := by
  exact ⟨by decide, fun l m h => findVerSub_leftmost l m h⟩

/-- C9 witness at the concrete input `x3.4`. -/
theorem c9_witness :
    ∃ n, matchVerAt (List.drop n "x3.4".data) = some (['3'], ['4'], []) ∧
      ∀ k < n, matchVerAt (List.drop k "x3.4".data) = none :=
  c9_leftmost.2 "x3.4".data (['3'], ['4'], []) (by decide)

/-! ## Lemmas about the aggregate maps and the matching stage -/

theorem foldl_preserve {α β : Type} (P : α → Prop) (f : α → β → α) (l : List β) (a : α)
    (hstep : ∀ x b, P x → P (f x b)) (ha : P a) : P (l.foldl f a) := by
  induction l generalizing a with
  | nil => exact ha
  | cons b bs ih => exact ih (f a b) (hstep a b ha)

theorem appGet_appSet (m : AppMap) (kI vI kQ : String) :
    appGet (appSet m kI vI) kQ = if kQ = kI then some vI else appGet m kQ := by
  induction m with
  | nil =>
    by_cases h : kQ = kI
    · simp [appSet, appGet, h]
    · simp [appSet, appGet, h, Ne.symm h]
  | cons p rest ih =>
    obtain ⟨k', v'⟩ := p
    by_cases h1 : k' = kI
    · by_cases h2 : kQ = kI
      · simp [appSet, appGet, h1, h2]
      · simp [appSet, appGet, h1, h2, Ne.symm h2]
    · by_cases h2 : k' = kQ
      · have h3 : ¬kQ = kI := fun hh => h1 (h2.trans hh)
        simp [appSet, appGet, h1, h2, h3]
      · simp [appSet, appGet, h1, h2, ih]

theorem nsGet_nsSet (acc : NsMap) (nsI kI vI nsQ kQ : String) :
    nsGet (nsSet acc nsI kI vI) nsQ kQ =
      if nsQ = nsI ∧ kQ = kI then some vI else nsGet acc nsQ kQ := by
  induction acc with
  | nil =>
    by_cases h1 : nsQ = nsI
    · by_cases h2 : kQ = kI
      · simp [nsSet, nsGet, appGet, appGet_appSet, h1, h2]
      · simp [nsSet, nsGet, appGet, appGet_appSet, h1, h2, Ne.symm h2]
    · simp [nsSet, nsGet, h1, Ne.symm h1]
  | cons p rest ih =>
    obtain ⟨n, m⟩ := p
    by_cases h1 : n = nsI
    · by_cases h2 : nsQ = n
      · by_cases h3 : kQ = kI
        · simp [nsSet, nsGet, appGet_appSet, h1, h2, h3]
        · simp [nsSet, nsGet, appGet_appSet, h1, h2, h3]
      · have h4 : ¬(nsQ = nsI ∧ kQ = kI) := fun hh => h2 (hh.1.trans h1.symm)
        have h5 : ¬nsI = nsQ := fun hh => h2 ((h1.trans hh).symm)
        simp [nsSet, nsGet, h1, h4, h5]
    · by_cases h2 : n = nsQ
      · have h3 : ¬nsQ = nsI := fun hh => h1 (h2.trans hh)
        simp [nsSet, nsGet, h1, h2, h3]
      · simp [nsSet, nsGet, h1, h2, ih]

theorem stepRule_of_match (ns img : String) (acc : NsMap) (r : Rule) (v : String)
    (hm : r.DetectionMatch img = true)
    (hv : normalizeSemVer (r.VersionFind img) = some v) :
    stepRule ns img acc r = nsSet acc ns r.ApplicationName v := by
  simp [stepRule, hm, hv]

theorem processImage_cons (r : Rule) (rs : List Rule) (ns img : String) (acc : NsMap) :
    processImage (r :: rs) ns img acc = processImage rs ns img (stepRule ns img acc r) := rfl

theorem nsGet_stepRule_isSome (ns img : String) (acc : NsMap) (r : Rule) (nsQ kQ : String)
    (h : (nsGet acc nsQ kQ).isSome = true) :
    (nsGet (stepRule ns img acc r) nsQ kQ).isSome = true := by
  by_cases hm : r.DetectionMatch img = true
  · cases hv : normalizeSemVer (r.VersionFind img) with
    | none => simpa [stepRule, hm, hv] using h
    | some v =>
      rw [stepRule_of_match ns img acc r v hm hv, nsGet_nsSet]
      by_cases hc : nsQ = ns ∧ kQ = r.ApplicationName
      · simp [hc]
      · simpa [hc] using h
  · simpa [stepRule, hm] using h

theorem nsGet_processImage_isSome (rules : List Rule) (ns img : String) (acc : NsMap)
    (nsQ kQ : String) (h : (nsGet acc nsQ kQ).isSome = true) :
    (nsGet (processImage rules ns img acc) nsQ kQ).isSome = true := by
  induction rules generalizing acc with
  | nil => exact h
  | cons r rs ih =>
    rw [processImage_cons]
    exact ih (stepRule ns img acc r) (nsGet_stepRule_isSome ns img acc r nsQ kQ h)

/-! ## C1: the matching stage and rule order -/

/-- C1 counterexample: both `ruleA` (declared first) and `ruleB`
(declared second) match `web:1.2.3`, yet the later rule also contributes
an aggregate entry — evaluation does not stop at the first matching
rule. -/
theorem c1_counterexample :
    ruleA.DetectionMatch "web:1.2.3" = true ∧
    ruleB.DetectionMatch "web:1.2.3" = true ∧
    nsGet (processImage [ruleA, ruleB] "ns1" "web:1.2.3" []) "ns1" "appB"
      = some "1.2.3" := by decide

/-- C1 amended: the inner rule loop has no early exit, so every rule in
the list whose detection pattern matches the image and whose extracted
version normalizes successfully leaves an aggregate entry under its own
application name (the earlier-declared matching rule contributes too —
but so does every later one). -/
theorem c1_amended (rules : List Rule) (ns img : String) (acc : NsMap)
    (r : Rule) (v : String) (hr : r ∈ rules)
    (hm : r.DetectionMatch img = true)
    (hv : normalizeSemVer (r.VersionFind img) = some v) :
    ∃ w, nsGet (processImage rules ns img acc) ns r.ApplicationName = some w := by
  rw [← Option.isSome_iff_exists]
  induction rules generalizing acc with
  | nil => simp at hr
  | cons r' rs ih =>
    rw [processImage_cons]
    rcases List.mem_cons.mp hr with h1 | h1
    · subst h1
      apply nsGet_processImage_isSome
      rw [stepRule_of_match ns img acc r v hm hv, nsGet_nsSet]
      simp
    · exact ih (stepRule ns img acc r') h1

/-- C1 witness: the earlier-declared matching rule `ruleA` indeed has an
entry after the image is processed. -/
theorem c1_witness :
    ∃ w, nsGet (processImage [ruleA, ruleB] "ns1" "web:1.2.3" []) "ns1" "appA"
      = some w :=
  c1_amended [ruleA, ruleB] "ns1" "web:1.2.3" [] ruleA "1.2.3"
    (List.mem_cons_self ruleA [ruleB]) (by decide) (by decide)

/-! ## C2: the end-to-end scenario -/

/-- C2: running the pipeline of `main` on the spec's scenario.  The
aggregate holds applicationName `redis` mapped to version `7.2.4` in
`ns1`, but the serialized report entry comes out with
`chart_name = "7.2.4"` and `version = "redis"`: the `for v, i := range`
loop at `src/main.go:82` binds `v` to the map key (the application name)
and `i` to the value (the version), and the struct literal uses them
swapped. -/
theorem c2_pipeline_run :
    processAll [redisRule] [("ns1", ["redis:7.2.4", "redis:7.2.4"])]
      = [("ns1", [("redis", "7.2.4")])] ∧
    buildReport (processAll [redisRule] [("ns1", ["redis:7.2.4", "redis:7.2.4"])])
      = [{ ChartName := "7.2.4", Version := "redis", Namespace := "ns1" }] := by
  decide

/-! ## C4: absent versions contribute nothing -/

/-- C4: an image whose detection pattern matches a rule but whose
extracted version does not normalize leaves the aggregate exactly as it
was: the absent case is the `none` branch of the step, no entry is
recorded and no default version is substituted. -/
theorem c4_absent_version (ns img : String) (acc : NsMap) (r : Rule)
    (hm : r.DetectionMatch img = true)
    (hn : normalizeSemVer (r.VersionFind img) = none) :
    stepRule ns img acc r = acc := by
  simp [stepRule, hm, hn]

/-- C4 witness: `redis:latest` matches the redis rule but carries no
version; the step leaves the accumulator empty. -/
theorem c4_witness : stepRule "ns1" "redis:latest" [] redisRule = [] :=
  c4_absent_version "ns1" "redis:latest" [] redisRule (by decide) (by decide)

/-! ## C5: at most one entry per (namespace, applicationName) -/

theorem appSet_keys (m : AppMap) (kI vI : String) :
    (appSet m kI vI).map Prod.fst =
      if kI ∈ m.map Prod.fst then m.map Prod.fst else m.map Prod.fst ++ [kI] := by
  induction m with
  | nil => simp [appSet]
  | cons p rest ih =>
    obtain ⟨k', v'⟩ := p
    by_cases h1 : k' = kI
    · simp [appSet, h1]
    · by_cases h2 : kI ∈ rest.map Prod.fst
      · simp [appSet, h1, h2, ih, Ne.symm h1]
      · simp [appSet, h1, h2, ih, Ne.symm h1]

theorem appSet_keys_nodup (m : AppMap) (kI vI : String)
    (h : (m.map Prod.fst).Nodup) : ((appSet m kI vI).map Prod.fst).Nodup := by
  rw [appSet_keys]
  by_cases h2 : kI ∈ m.map Prod.fst
  · rwa [if_pos h2]
  · rw [if_neg h2]
    refine h.append (List.nodup_singleton kI) ?_
    intro x hx hmem
    simp at hmem
    subst hmem
    exact h2 hx

theorem nsSet_keys (acc : NsMap) (nsI kI vI : String) :
    (nsSet acc nsI kI vI).map Prod.fst =
      if nsI ∈ acc.map Prod.fst then acc.map Prod.fst else acc.map Prod.fst ++ [nsI] := by
  induction acc with
  | nil => simp [nsSet]
  | cons p rest ih =>
    obtain ⟨n, m⟩ := p
    by_cases h1 : n = nsI
    · simp [nsSet, h1]
    · by_cases h2 : nsI ∈ rest.map Prod.fst
      · simp [nsSet, h1, h2, ih, Ne.symm h1]
      · simp [nsSet, h1, h2, ih, Ne.symm h1]

theorem nsSet_keysNodup (acc : NsMap) (nsI kI vI : String) (h : nsKeysNodup acc) :
    nsKeysNodup (nsSet acc nsI kI vI) := by
  induction acc with
  | nil =>
    refine ⟨by simp [nsSet], ?_⟩
    intro p hp
    simp only [nsSet, List.mem_cons, List.not_mem_nil, or_false] at hp
    subst hp
    simp [appSet]
  | cons q rest ih =>
    obtain ⟨n, m⟩ := q
    obtain ⟨hout, hin⟩ := h
    simp only [List.map_cons, List.nodup_cons] at hout
    obtain ⟨hn, hrest⟩ := hout
    have hrestInv : nsKeysNodup rest :=
      ⟨hrest, fun p hp => hin p (List.mem_cons_of_mem _ hp)⟩
    by_cases h1 : n = nsI
    · have hset : nsSet ((n, m) :: rest) nsI kI vI = (n, appSet m kI vI) :: rest := by
        simp only [nsSet, if_pos h1]
      rw [hset]
      refine ⟨?_, ?_⟩
      · simp only [List.map_cons, List.nodup_cons]
        exact ⟨hn, hrest⟩
      · intro p hp
        rcases List.mem_cons.mp hp with hp1 | hp1
        · subst hp1
          exact appSet_keys_nodup m kI vI (hin (n, m) (by simp))
        · exact hin p (List.mem_cons_of_mem _ hp1)
    · have hset : nsSet ((n, m) :: rest) nsI kI vI = (n, m) :: nsSet rest nsI kI vI := by
        simp only [nsSet, if_neg h1]
      rw [hset]
      refine ⟨?_, ?_⟩
      · simp only [List.map_cons, List.nodup_cons]
        refine ⟨?_, (ih hrestInv).1⟩
        rw [nsSet_keys]
        by_cases h2 : nsI ∈ rest.map Prod.fst
        · rwa [if_pos h2]
        · rw [if_neg h2]
          simp only [List.mem_append, List.mem_singleton]
          rintro (hc | hc)
          · exact hn hc
          · exact h1 hc
      · intro p hp
        rcases List.mem_cons.mp hp with hp1 | hp1
        · subst hp1
          exact hin (n, m) (by simp)
        · exact (ih hrestInv).2 p hp1

theorem stepRule_keysNodup (ns img : String) (acc : NsMap) (r : Rule)
    (h : nsKeysNodup acc) : nsKeysNodup (stepRule ns img acc r) := by
  unfold stepRule
  split
  · split
    · exact nsSet_keysNodup acc ns r.ApplicationName _ h
    · exact h
  · exact h

theorem processAll_keysNodup (rules : List Rule) (imgs : List (String × List String)) :
    nsKeysNodup (processAll rules imgs) := by
  unfold processAll
  refine foldl_preserve nsKeysNodup _ _ _ ?_ ⟨by simp, by simp⟩
  intro acc p hacc
  refine foldl_preserve nsKeysNodup _ _ _ ?_ hacc
  intro acc' img hacc'
  unfold processImage
  refine foldl_preserve nsKeysNodup _ _ _ ?_ hacc'
  intro a r ha
  exact stepRule_keysNodup p.1 img a r ha

theorem filter_keys_len (m : AppMap) (app : String)
    (h : (m.map Prod.fst).Nodup) :
    (m.filter (fun q => q.1 == app)).length ≤ 1 := by
  induction m with
  | nil => simp
  | cons q rest ih =>
    simp only [List.map_cons, List.nodup_cons] at h
    obtain ⟨h1, h2⟩ := h
    by_cases hq : q.1 = app
    · have hrest : rest.filter (fun q' => q'.1 == app) = [] := by
        rw [List.filter_eq_nil_iff]
        intro a ha hcon
        have ha1 : a.1 = app := by simpa using hcon
        exact h1 (by rw [hq, ← ha1]; exact List.mem_map_of_mem Prod.fst ha)
      simp [List.filter_cons, hq, hrest]
    · simp only [List.filter_cons]
      have : (q.1 == app) = false := by simpa using hq
      rw [this]
      simp only [Bool.false_eq_true, if_false]
      exact ih h2

theorem aggCount_le_one (m : NsMap) (ns app : String) (h : nsKeysNodup m) :
    aggCount m ns app ≤ 1 := by
  induction m with
  | nil => simp [aggCount]
  | cons p rest ih =>
    obtain ⟨hout, hin⟩ := h
    simp only [List.map_cons, List.nodup_cons] at hout
    obtain ⟨h1, h2⟩ := hout
    have hrestInv : nsKeysNodup rest :=
      ⟨h2, fun q hq => hin q (List.mem_cons_of_mem _ hq)⟩
    by_cases hp : p.1 = ns
    · have hrest : rest.flatMap
          (fun q => if q.1 = ns then q.2.filter (fun r => r.1 == app) else []) = [] := by
        rw [List.flatMap_eq_nil_iff]
        intro q hq
        have hne : ¬q.1 = ns := by
          intro hcon
          exact h1 (by rw [hp, ← hcon]; exact List.mem_map_of_mem Prod.fst hq)
        simp [hne]
      simp only [aggCount, List.flatMap_cons, hp, if_pos rfl, hrest, List.append_nil]
      exact filter_keys_len p.2 app (hin p (by simp))
    · simp only [aggCount, List.flatMap_cons, hp, if_neg hp, List.nil_append]
      exact ih hrestInv

/-- C5: the final aggregate never records two entries for one
(namespace, applicationName) pair — at most one survives — and the step
for an image matching a rule with a resolvable version overwrites the
pair's previous entry with the new version (last write wins). -/
theorem c5_unique_per_ns_app :
    (∀ (rules : List Rule) (imgs : List (String × List String)) (ns app : String),
      aggCount (processAll rules imgs) ns app ≤ 1) ∧
    (∀ (acc : NsMap) (ns img : String) (r : Rule) (v : String),
      r.DetectionMatch img = true →
      normalizeSemVer (r.VersionFind img) = some v →
      nsGet (stepRule ns img acc r) ns r.ApplicationName = some v) := by
  constructor
  · intro rules imgs ns app
    exact aggCount_le_one _ ns app (processAll_keysNodup rules imgs)
  · intro acc ns img r v hm hv
    rw [stepRule_of_match ns img acc r v hm hv, nsGet_nsSet]
    simp

/-- C5 witness: processing a second redis image in `ns1` overwrites the
previously recorded version `6.0.0` with `7.2.4`. -/
theorem c5_witness :
    nsGet (stepRule "ns1" "redis:7.2.4" [("ns1", [("redis", "6.0.0")])] redisRule)
      "ns1" "redis" = some "7.2.4" :=
  c5_unique_per_ns_app.2 [("ns1", [("redis", "6.0.0")])] "ns1" "redis:7.2.4" redisRule
    "7.2.4" (by decide) (by decide)

/-! ## C6: the image collector deduplicates -/

theorem mem_setInsert (a : List String) (x y : String) :
    y ∈ setInsert a x ↔ y ∈ a ∨ y = x := by
  unfold setInsert
  by_cases hx : x ∈ a
  · rw [if_pos hx]
    exact ⟨Or.inl, fun h => h.elim id (fun e => e ▸ hx)⟩
  · rw [if_neg hx]
    simp [List.mem_append]

theorem setInsert_nodup (a : List String) (x : String) (h : a.Nodup) :
    (setInsert a x).Nodup := by
  unfold setInsert
  by_cases hx : x ∈ a
  · rwa [if_pos hx]
  · rw [if_neg hx]
    refine h.append (List.nodup_singleton x) ?_
    intro b hb hmem
    simp at hmem
    subst hmem
    exact hx hb

theorem mem_foldl_setInsert (cs : List Container) (acc : List String) (y : String) :
    y ∈ cs.foldl (fun a c => setInsert a c.Image) acc ↔
      y ∈ acc ∨ y ∈ cs.map Container.Image := by
  induction cs generalizing acc with
  | nil => simp
  | cons c rest ih =>
    rw [List.foldl_cons, ih]
    simp [mem_setInsert, or_assoc]

theorem mem_collectImages (s : PodSpec) (acc : List String) (y : String) :
    y ∈ collectImages s acc ↔
      y ∈ acc ∨ y ∈ (s.Containers ++ s.InitContainers).map Container.Image := by
  unfold collectImages
  rw [mem_foldl_setInsert, mem_foldl_setInsert]
  simp [or_assoc]

theorem collectImages_nodup (s : PodSpec) (acc : List String) (h : acc.Nodup) :
    (collectImages s acc).Nodup := by
  unfold collectImages
  refine foldl_preserve List.Nodup _ _ _ (fun a c ha => setInsert_nodup a c.Image ha) ?_
  exact foldl_preserve List.Nodup _ _ _ (fun a c ha => setInsert_nodup a c.Image ha) h

theorem mem_foldl_collect (specs : List PodSpec) (acc : List String) (y : String) :
    y ∈ specs.foldl (fun a s => collectImages s a) acc ↔
      y ∈ acc ∨ y ∈ allContainerImages specs := by
  induction specs generalizing acc with
  | nil => simp [allContainerImages]
  | cons s rest ih =>
    rw [List.foldl_cons, ih, mem_collectImages]
    simp [allContainerImages, or_assoc]

theorem mem_collectNamespace (specs : List PodSpec) (y : String) :
    y ∈ collectNamespace specs ↔ y ∈ allContainerImages specs := by
  unfold collectNamespace
  rw [mem_foldl_collect]
  simp

theorem collectNamespace_nodup (specs : List PodSpec) : (collectNamespace specs).Nodup := by
  unfold collectNamespace
  refine foldl_preserve List.Nodup _ _ _ ?_ List.nodup_nil
  intro a s ha
  exact collectImages_nodup s a ha

/-- C6: the collected image collection of a namespace is a set: an image
string referenced by any main or init container of any workload occurs
exactly once in it, however many containers or workloads reference it,
and a string referenced by none does not occur. -/
theorem c6_collector_dedup (specs : List PodSpec) (img : String) :
    (collectNamespace specs).count img =
      if img ∈ allContainerImages specs then 1 else 0 := by
  by_cases h : img ∈ allContainerImages specs
  · rw [if_pos h]
    exact List.count_eq_one_of_mem (collectNamespace_nodup specs)
      ((mem_collectNamespace specs img).mpr h)
  · rw [if_neg h]
    exact List.count_eq_zero.mpr (fun hc => h ((mem_collectNamespace specs img).mp hc))

/-! ## C7 and C10: rule loading -/

theorem listHasPre_self_append (p s : List Char) : listHasPre p (p ++ s) = true := by
  induction p with
  | nil => rfl
  | cons c cs ih => simp [listHasPre, ih]

theorem listHasSub_embed (pre pat suf : List Char) :
    listHasSub pat (pre ++ (pat ++ suf)) = true := by
  induction pre with
  | nil =>
    rw [List.nil_append]
    cases hps : pat ++ suf with
    | nil =>
      have hp : pat = [] := by
        cases pat with
        | nil => rfl
        | cons x xs => simp at hps
      rw [hp]
      rfl
    | cons c cs =>
      rw [listHasSub]
      have hpre : listHasPre pat (c :: cs) = true := by
        rw [← hps]
        exact listHasPre_self_append pat suf
      rw [hpre]
      rfl
  | cons x pre' ih =>
    rw [List.cons_append, listHasSub, ih]
    simp

theorem loadRulesLoop_ok_names {R : Type} (compile : String → Except String R)
    (entries : List DetectionRuleYaml) (rs : List (RuleG R))
    (h : loadRulesLoop compile entries = Except.ok rs) :
    rs.map RuleG.ApplicationName = entries.map DetectionRuleYaml.ApplicationName := by
  induction entries generalizing rs with
  | nil =>
    simp only [loadRulesLoop, Except.ok.injEq] at h
    subst h
    rfl
  | cons e rest ih =>
    rw [loadRulesLoop] at h
    cases hd : compile e.DetectionRegex with
    | error err => rw [hd] at h; simp at h
    | ok d =>
      rw [hd] at h
      cases hv : compile e.VersionRegex with
      | error err => rw [hv] at h; simp at h
      | ok v =>
        rw [hv] at h
        cases hr : loadRulesLoop compile rest with
        | error err => rw [hr] at h; simp at h
        | ok rs' =>
          rw [hr] at h
          simp only [Except.ok.injEq] at h
          subst h
          simp [ih rs' hr]

theorem loadRulesLoop_error_of_fails {R : Type} (compile : String → Except String R)
    (entries : List DetectionRuleYaml)
    (h : ∃ r ∈ entries, failsCompile compile r) :
    ∃ msg, loadRulesLoop compile entries = Except.error msg := by
  induction entries with
  | nil => simp at h
  | cons e rest ih =>
    rw [loadRulesLoop]
    cases hd : compile e.DetectionRegex with
    | error err => exact ⟨_, rfl⟩
    | ok d =>
      cases hv : compile e.VersionRegex with
      | error err => exact ⟨_, rfl⟩
      | ok v =>
        obtain ⟨r, hr, hf⟩ := h
        rcases List.mem_cons.mp hr with h1 | h1
        · subst h1
          rcases hf with ⟨err, hc⟩ | ⟨err, hc⟩
          · rw [hd] at hc; simp at hc
          · rw [hv] at hc; simp at hc
        · obtain ⟨msg, hmsg⟩ := ih ⟨r, h1, hf⟩
          rw [hmsg]
          exact ⟨msg, rfl⟩

theorem loadRulesLoop_error_names {R : Type} (compile : String → Except String R)
    (entries : List DetectionRuleYaml) (msg : String)
    (h : loadRulesLoop compile entries = Except.error msg) :
    ∃ r ∈ entries, failsCompile compile r ∧ strContains msg r.ApplicationName = true := by
  induction entries generalizing msg with
  | nil => simp [loadRulesLoop] at h
  | cons e rest ih =>
    rw [loadRulesLoop] at h
    cases hd : compile e.DetectionRegex with
    | error err =>
      rw [hd] at h
      simp only [Except.error.injEq] at h
      subst h
      refine ⟨e, by simp, Or.inl ⟨err, hd⟩, ?_⟩
      unfold strContains
      simp only [String.data_append, List.append_assoc]
      exact listHasSub_embed _ _ _
    | ok d =>
      rw [hd] at h
      cases hv : compile e.VersionRegex with
      | error err =>
        rw [hv] at h
        simp only [Except.error.injEq] at h
        subst h
        refine ⟨e, by simp, Or.inr ⟨err, hv⟩, ?_⟩
        unfold strContains
        simp only [String.data_append, List.append_assoc]
        exact listHasSub_embed _ _ _
      | ok v =>
        rw [hv] at h
        cases hr : loadRulesLoop compile rest with
        | error err =>
          rw [hr] at h
          simp only [Except.error.injEq] at h
          subst h
          obtain ⟨r, h1, h2, h3⟩ := ih err hr
          exact ⟨r, List.mem_cons_of_mem _ h1, h2, h3⟩
        | ok rs' => rw [hr] at h; simp at h

/-- C7: the rule-loading loop preserves declaration order of the
application names on success; any regex compilation failure yields an
error (no rule list, not even a partial one) whose message contains the
failing rule's application name. -/
theorem c7_load_order_and_errors {R : Type} (compile : String → Except String R)
    (entries : List DetectionRuleYaml) :
    (∀ rs, loadRulesLoop compile entries = Except.ok rs →
      rs.map RuleG.ApplicationName = entries.map DetectionRuleYaml.ApplicationName) ∧
    ((∃ r ∈ entries, failsCompile compile r) →
      ∃ msg, loadRulesLoop compile entries = Except.error msg) ∧
    (∀ msg, loadRulesLoop compile entries = Except.error msg →
      ∃ r ∈ entries, failsCompile compile r ∧ strContains msg r.ApplicationName = true) :=
  ⟨fun rs h => loadRulesLoop_ok_names compile entries rs h,
   fun h => loadRulesLoop_error_of_fails compile entries h,
   fun msg h => loadRulesLoop_error_names compile entries msg h⟩

/-- C7 witness: a single entry whose detection pattern `[` does not
compile makes loading fail. -/
theorem c7_witness :
    ∃ msg, loadRulesLoop demoCompile
      [{ ApplicationName := "appx", VersionRegex := "v", DetectionRegex := "[" }] =
        Except.error msg :=
  (c7_load_order_and_errors demoCompile
      [{ ApplicationName := "appx", VersionRegex := "v", DetectionRegex := "[" }]).2.1
    ⟨{ ApplicationName := "appx", VersionRegex := "v", DetectionRegex := "[" },
      by simp, Or.inl ⟨"missing closing ]", rfl⟩⟩

/-- C10: a configuration that parses to zero rule entries (an empty or
missing rule list) loads as the empty rule list with no error. -/
theorem c10_empty_rule_list {R : Type} (compile : String → Except String R) :
    loadRulesLoop compile [] = Except.ok [] := rfl
